import Mathlib

/-!
# Verification of the rustventure scene engine (`src/scene.rs`)

Shallow embedding of the scene-file parser, the action parser and the
action-matching engine of `src/scene.rs`.  Strings are modelled as
`List Char`; file contents as the list of raw lines produced by
`read_line` (each line keeps its trailing `'\n'`, the final line may
lack one).

The action-line grammar in the source is the compiled regular
expression `^!(\w+):(.*)\s->\s(\w+)\s(.*)$` (leftmost match, greedy
groups).  We embed its matching behaviour directly: `\w` is modelled
by its ASCII core (alphanumeric or underscore), `\s` by ASCII
whitespace (`Char.isWhitespace`), and `.` matches any character except
`'\n'`.

The matchers that `Action::from` builds with `Regex::new` are modelled
by a small executable regex engine faithful to the `regex` crate on
the constructs the program generates for keyword actions: literal
characters, backslash-escaped punctuation, `.`, `^` and `$` (matched
at absolute positions, no multi-line mode); other metacharacters are
treated as unsupported and make compilation fail, standing in for the
crate's compilation errors.  `regex::escape` is embedded with the
exact metacharacter set of `regex-syntax`.
-/

namespace Rustventure

/-- ASCII core of the regex class `\w`: alphanumeric or underscore. -/
def isWordChar (c : Char) : Bool := c.isAlphanum || c = '_'

/-- Model of `str::trim` and of the regex class `\s`: ASCII whitespace. -/
def trim (l : List Char) : List Char :=
  ((l.dropWhile Char.isWhitespace).reverse.dropWhile Char.isWhitespace).reverse

/-! ## The regex engine for compiled matchers -/

/-- One token of a compiled matcher: literal character, `.`, `^`, `$`. -/
inductive RTok where
  | lit (c : Char)
  | dot
  | bol
  | eol
  deriving DecidableEq

/-- The metacharacters escaped by `regex::escape`
(`regex-syntax`'s `is_meta_character`). -/
def isMetaChar (c : Char) : Bool :=
  c = '\\' || c = '.' || c = '+' || c = '*' || c = '?' || c = '(' ||
  c = ')' || c = '|' || c = '[' || c = ']' || c = '{' || c = '}' ||
  c = '^' || c = '$' || c = '#' || c = '&' || c = '-' || c = '~'

/-- Embedding of `regex::escape`: prefix every metacharacter with a backslash. -/
def regexEscape (p : List Char) : List Char :=
  p.flatMap fun c => if isMetaChar c then ['\\', c] else [c]

/-- Compilation of a pattern string into matcher tokens.  Escaped
punctuation becomes a literal; `.`, `^`, `$` become their tokens; a
trailing backslash, an escaped word character and the remaining
metacharacters (`* + ? ( ) | [ ] { }` — constructs the engine does not
support) fail to compile. -/
def compileToks : List Char → Option (List RTok)
  | [] => some []
  | c :: rest =>
    if c = '\\' then
      match rest with
      | [] => none
      | d :: rest2 =>
        if isWordChar d then none
        else (compileToks rest2).map (RTok.lit d :: ·)
    else if c = '.' then (compileToks rest).map (RTok.dot :: ·)
    else if c = '^' then (compileToks rest).map (RTok.bol :: ·)
    else if c = '$' then (compileToks rest).map (RTok.eol :: ·)
    else if c = '*' ∨ c = '+' ∨ c = '?' ∨ c = '(' ∨ c = ')' ∨
            c = '|' ∨ c = '[' ∨ c = ']' ∨ c = '{' ∨ c = '}' then none
    else (compileToks rest).map (RTok.lit c :: ·)

/-- Run the matcher tokens against `s` starting at position `i`;
returns the end position on success.  `^` only matches at position
`0`, `$` only at `s.length`, `.` any character except `'\n'`. -/
def matchToksFrom (s : List Char) : List RTok → Nat → Option Nat
  | [], i => some i
  | .lit c :: ts, i =>
    match s.get? i with
    | some d => if d = c then matchToksFrom s ts (i + 1) else none
    | none => none
  | .dot :: ts, i =>
    match s.get? i with
    | some d => if d ≠ '\n' then matchToksFrom s ts (i + 1) else none
    | none => none
  | .bol :: ts, i => if i = 0 then matchToksFrom s ts i else none
  | .eol :: ts, i => if i = s.length then matchToksFrom s ts i else none

/-- A compiled regular expression (the `regex::Regex` values built by
`Action::from` for the action matchers). -/
structure Regex where
  toks : List RTok
  deriving DecidableEq

/-- Embedding of `Regex::new`. -/
def Regex.new (p : List Char) : Option Regex :=
  (compileToks p).map Regex.mk

/-- Embedding of `Regex::is_match`: unanchored search — the pattern may match at
any start position of the haystack. -/
def Regex.is_match (r : Regex) (s : List Char) : Bool :=
  (List.range (s.length + 1)).any fun i => (matchToksFrom s r.toks i).isSome

/-! ## The action-line grammar `^!(\w+):(.*)\s->\s(\w+)\s(.*)$` -/

/-- Matching of the regex tail `\s->\s(\w+)\s(.*)$` against a suffix
of the line: one whitespace, the two characters `->`, one whitespace,
a maximal non-empty word-character run (the verb), one whitespace, and
the rest of the line as the argument (`.` excludes `'\n'`). -/
def sepTail : List Char → Option (List Char × List Char)
  | w1 :: m1 :: m2 :: w2 :: t =>
    if w1.isWhitespace = true ∧ m1 = '-' ∧ m2 = '>' ∧ w2.isWhitespace = true then
      match t.dropWhile isWordChar with
      | w3 :: arg =>
        if t.takeWhile isWordChar ≠ [] ∧ w3.isWhitespace = true ∧
           ∀ x ∈ arg, x ≠ '\n'
        then some (t.takeWhile isWordChar, arg) else none
      | [] => none
    else none
  | _ => none

/-- The greedy group `(.*)` before the separator: try the longest
prefix of `body` first (`i` counts down from `body.length`), skipping
prefixes containing `'\n'` (which `.` cannot match), and return the
first split whose suffix matches `sepTail`.  Returns
`(pattern, verb, argument)`. -/
def greedySplit (body : List Char) : Nat → Option (List Char × List Char × List Char)
  | 0 =>
    match sepTail body with
    | some (v, a) => some ([], v, a)
    | none => none
  | i + 1 =>
    match sepTail (body.drop (i + 1)) with
    | some (v, a) =>
      if ∀ x ∈ body.take (i + 1), x ≠ '\n'
      then some (body.take (i + 1), v, a)
      else greedySplit body i
    | none => greedySplit body i

/-- The four capture groups of `^!(\w+):(.*)\s->\s(\w+)\s(.*)$`. -/
structure Captures where
  kind : List Char
  pattern : List Char
  verb : List Char
  argument : List Char
  deriving DecidableEq

/-- Embedding of `ACTION_RE.captures(line)`: a leading `'!'`, a maximal non-empty
word-character run (the kind), a `':'`, then the greedy split of the
remaining body into pattern / separator / verb / argument. -/
def captures (line : List Char) : Option Captures :=
  match line with
  | [] => none
  | bang :: rest =>
    if bang = '!' then
      match rest.dropWhile isWordChar with
      | colon :: body =>
        if colon = ':' ∧ rest.takeWhile isWordChar ≠ [] then
          match greedySplit body body.length with
          | some (p, v, a) => some ⟨rest.takeWhile isWordChar, p, v, a⟩
          | none => none
        else none
      | [] => none
    else none

/-! ## Actions and scenes -/

/-- The effect of an action (`enum Effect`). -/
inductive Effect where
  | Output (s : List Char)
  | Change (s : List Char)
  deriving DecidableEq

/-- Embedding of `struct Action`. -/
structure Action where
  expression : Regex
  effect : Effect
  deriving DecidableEq

/-- The error cases of `Action::from` / `Scene::load` (the source
boxes them as strings / `regex::Error`; only the kind and the line
payload matter here).  I/O errors are outside the embedding: `load`
takes the already-read file content. -/
inductive SceneError where
  | invalidActionLine (line : List Char)
  | invalidPattern
  deriving DecidableEq

/-- Embedding of `Action::from`: match the line against `ACTION_RE` (fail with
`invalid action line: {line}` when it does not match), then compile
the matcher — `^{escape(pattern)}$` when the kind is `kw`, the pattern
verbatim otherwise (a compilation failure propagates) — and build the
effect: `Change(argument)` when the verb is `scene`, otherwise
`Output(argument)`. -/
def Action.fromLine (line : List Char) : Except SceneError Action :=
  match captures line with
  | none => .error (.invalidActionLine line)
  | some c =>
    let exprStr := if c.kind = "kw".toList
      then '^' :: (regexEscape c.pattern ++ ['$'])
      else c.pattern
    match Regex.new exprStr with
    | none => .error .invalidPattern
    | some expr =>
      .ok ⟨expr, if c.verb = "scene".toList
                 then Effect.Change c.argument
                 else Effect.Output c.argument⟩

/-- Embedding of `struct Scene` (the `path` field only feeds `load_next`'s file
resolution, outside the embedding). -/
structure Scene where
  description : List Char
  actions : List Action
  deriving DecidableEq

/-- Split file content into the lines `read_line` yields: each line
includes its trailing `'\n'`; the final line may lack one; nothing
after a trailing `'\n'`. -/
def splitLines : List Char → List (List Char)
  | [] => []
  | c :: rest =>
    if c = '\n' then ['\n'] :: splitLines rest
    else
      match splitLines rest with
      | [] => [[c]]
      | l :: ls => (c :: l) :: ls

/-- First loop of `Scene::load`: accumulate raw (untrimmed) lines into
the description while `Action::from` on the trimmed line fails; stop
at the first line that parses, returning it and the unread rest. -/
def loadDesc : List (List Char) → List Char × Option Action × List (List Char)
  | [] => ([], none, [])
  | l :: ls =>
    match Action.fromLine (trim l) with
    | .ok a => ([], some a, ls)
    | .error _ =>
      let r := loadDesc ls
      (l ++ r.1, r.2.1, r.2.2)

/-- Second loop of `Scene::load`: skip lines that are blank after
trimming; every other line must parse as an action, and the first
parse error aborts the whole load. -/
def loadActions : List (List Char) → Except SceneError (List Action)
  | [] => .ok []
  | l :: ls =>
    if trim l = [] then loadActions ls
    else
      match Action.fromLine (trim l) with
      | .error e => .error e
      | .ok a => (loadActions ls).map (a :: ·)

/-- Embedding of `Scene::load` on the file content (I/O already performed). -/
def Scene.load (content : List Char) : Except SceneError Scene :=
  match loadDesc (splitLines content) with
  | (desc, none, _) => .ok ⟨desc, []⟩
  | (desc, some a, rest) => (loadActions rest).map fun as => ⟨desc, a :: as⟩

/-- The loop of `Scene::get_action`: scan the actions in order, return the first
whose expression matches the input. -/
def getActionList : List Action → List Char → Option Action
  | [], _ => none
  | a :: as, input =>
    if a.expression.is_match input then some a else getActionList as input

/-- Embedding of `Scene::get_action`. -/
def Scene.get_action (s : Scene) (input : List Char) : Option Action :=
  getActionList s.actions input

/-- Position `j` is a viable split of `body` for the greedy group
`(.*)`: the prefix contains no newline (so `.` can match it) and the
suffix matches the rest of the grammar regex. -/
def GoodSplit (body : List Char) (j : Nat) : Prop :=
  (∀ x ∈ body.take j, x ≠ '\n') ∧ (sepTail (body.drop j)).isSome = true

instance (body : List Char) (j : Nat) : Decidable (GoodSplit body j) := by
  unfold GoodSplit; infer_instance

/-- A decomposition of a line according to the grammar regex
`^!(\w+):(.*)\s->\s(\w+)\s(.*)$`: a `'!'`, a non-empty word-character
run `k` (terminated by the first `':'`, since `':'` is not a word
character), a pattern `p` (no newline), a separator of one whitespace,
`->` and one whitespace, a non-empty word-character verb `v`, one
whitespace, and the argument `a` (no newline) running to the end. -/
def IsSplit (l k p v a : List Char) : Prop :=
  ∃ w1 w2 w3 : Char,
    l = '!' :: (k ++ ':' :: (p ++ w1 :: '-' :: '>' :: w2 :: (v ++ w3 :: a))) ∧
    k ≠ [] ∧ (∀ x ∈ k, isWordChar x = true) ∧ (∀ x ∈ p, x ≠ '\n') ∧
    w1.isWhitespace = true ∧ w2.isWhitespace = true ∧
    v ≠ [] ∧ (∀ x ∈ v, isWordChar x = true) ∧
    w3.isWhitespace = true ∧ ∀ x ∈ a, x ≠ '\n'

/-! ## Basic helper lemmas -/

theorem whitespace_not_word {c : Char} (h : c.isWhitespace = true) :
    isWordChar c = false := by
  simp only [Char.isWhitespace, Bool.or_eq_true, decide_eq_true_eq] at h
  rcases h with ((h | h) | h) | h <;> subst h <;> decide

theorem takeWhile_dropWhile_append_cons {α : Type} (p : α → Bool) (v : List α)
    (b : α) (rest : List α) (hv : ∀ x ∈ v, p x = true) (hb : p b = false) :
    (v ++ b :: rest).takeWhile p = v ∧ (v ++ b :: rest).dropWhile p = b :: rest := by
  induction v with
  | nil => simp [List.takeWhile_cons, List.dropWhile_cons, hb]
  | cons a v ih =>
    have ha : p a = true := hv a (by simp)
    have h2 := ih fun x hx => hv x (by simp [hx])
    simp [List.takeWhile_cons, List.dropWhile_cons, ha, h2.1, h2.2]

/-! ## Characterization of the grammar regex `^!(\w+):(.*)\s->\s(\w+)\s(.*)$` -/

/-- The helper `sepTail` finds exactly the decompositions of a suffix into
separator (`\s->\s`), verb (`\w+`), one whitespace and argument. -/
theorem sepTail_eq_some_iff {t v a : List Char} :
    sepTail t = some (v, a) ↔
      ∃ w1 w2 w3 : Char,
        t = w1 :: '-' :: '>' :: w2 :: (v ++ w3 :: a) ∧
        w1.isWhitespace = true ∧ w2.isWhitespace = true ∧
        v ≠ [] ∧ (∀ x ∈ v, isWordChar x = true) ∧
        w3.isWhitespace = true ∧ ∀ x ∈ a, x ≠ '\n' := by
  constructor
  · intro h
    match t with
    | [] => simp [sepTail] at h
    | [c] => simp [sepTail] at h
    | [c, d] => simp [sepTail] at h
    | [c, d, e] => simp [sepTail] at h
    | w1 :: m1 :: m2 :: w2 :: t2 =>
      rw [sepTail] at h
      split at h
      · rename_i hguard
        obtain ⟨hw1, rfl, rfl, hw2⟩ := hguard
        rcases hd : t2.dropWhile isWordChar with _ | ⟨w3, arg⟩ <;> rw [hd] at h
        · exact absurd h (by simp)
        · rw [Option.ite_none_right_eq_some, Option.some.injEq,
            Prod.mk.injEq] at h
          obtain ⟨⟨hne, hw3, harg⟩, hv1, rfl⟩ := h
          have ht2 : t2 = v ++ w3 :: arg := by
            rw [← hv1, ← hd, t2.takeWhile_append_dropWhile]
          refine ⟨w1, w2, w3, by rw [ht2], hw1, hw2, hv1 ▸ hne, ?_, hw3, harg⟩
          intro x hx
          exact List.mem_takeWhile_imp (p := isWordChar) (by rw [hv1]; exact hx)
      · exact absurd h (by simp)
  · rintro ⟨w1, w2, w3, rfl, hw1, hw2, hvne, hv, hw3, ha⟩
    have hw3w : isWordChar w3 = false := whitespace_not_word hw3
    have htd := takeWhile_dropWhile_append_cons isWordChar v w3 a hv hw3w
    rw [sepTail, if_pos ⟨hw1, rfl, rfl, hw2⟩, htd.2]
    show (if (v ++ w3 :: a).takeWhile isWordChar ≠ [] ∧ w3.isWhitespace = true ∧
        (∀ x ∈ a, x ≠ '\n') then some ((v ++ w3 :: a).takeWhile isWordChar, a)
      else none) = some (v, a)
    rw [htd.1, if_pos ⟨hvne, hw3, ha⟩]

theorem not_goodSplit_of_sepTail_none {body : List Char} {j : Nat}
    (hs : sepTail (body.drop j) = none) : ¬ GoodSplit body j := by
  intro hg
  rw [GoodSplit, hs] at hg
  exact absurd hg.2 (by simp)

theorem not_goodSplit_of_nl {body : List Char} {j : Nat}
    (ht : ¬ ∀ x ∈ body.take j, x ≠ '\n') : ¬ GoodSplit body j :=
  fun hg => ht hg.1

theorem forall_le_succ_of_not_top {P : Nat → Prop} {i : Nat} (hni : ¬ P (i + 1)) :
    (∀ j ≤ i, ¬ P j) ↔ ∀ j ≤ i + 1, ¬ P j := by
  constructor
  · intro h j hj
    rcases eq_or_lt_of_le hj with rfl | hlt
    · exact hni
    · exact h j (Nat.lt_succ_iff.mp hlt)
  · intro h j hj
    exact h j (hj.trans (Nat.le_succ i))

/-- The greedy search fails up to bound `i` exactly when no position
`j ≤ i` is a viable split. -/
theorem greedySplit_eq_none_iff {body : List Char} :
    ∀ i, greedySplit body i = none ↔ ∀ j ≤ i, ¬ GoodSplit body j := by
  intro i
  induction i with
  | zero =>
    rcases hs : sepTail body with _ | ⟨v, a⟩
    · have hred : greedySplit body 0 = none := by rw [greedySplit, hs]
      rw [hred]
      simp only [true_iff]
      intro j hj
      obtain rfl : j = 0 := Nat.le_zero.mp hj
      exact not_goodSplit_of_sepTail_none (by rw [List.drop_zero, hs])
    · have hred : greedySplit body 0 = some ([], v, a) := by rw [greedySplit, hs]
      rw [hred]
      constructor
      · intro h; exact absurd h (by simp)
      · intro h
        have h0 := h 0 (le_refl 0)
        rw [GoodSplit] at h0
        exact absurd ⟨by simp, by rw [List.drop_zero, hs]; rfl⟩ h0
  | succ i ih =>
    rcases hs : sepTail (body.drop (i + 1)) with _ | ⟨v, a⟩
    · have hred : greedySplit body (i + 1) = greedySplit body i := by
        rw [greedySplit, hs]
      rw [hred, ih]
      exact forall_le_succ_of_not_top (not_goodSplit_of_sepTail_none hs)
    · by_cases ht : ∀ x ∈ body.take (i + 1), x ≠ '\n'
      · have hred : greedySplit body (i + 1) =
            some (body.take (i + 1), v, a) := by
          rw [greedySplit, hs]; exact if_pos ht
        rw [hred]
        constructor
        · intro h; exact absurd h (by simp)
        · intro h
          exact absurd ⟨ht, by rw [hs]; rfl⟩ (h (i + 1) (le_refl _))
      · have hred : greedySplit body (i + 1) = greedySplit body i := by
          rw [greedySplit, hs]; exact if_neg ht
        rw [hred, ih]
        exact forall_le_succ_of_not_top (not_goodSplit_of_nl ht)

/-- What the greedy search returns: the pattern is the prefix at some
viable split position `j ≤ i`, the suffix decomposes through
`sepTail`, and no strictly later position up to the bound is viable
(greediness: the last viable separator wins). -/
theorem greedySplit_eq_some {body p v a : List Char} :
    ∀ i, greedySplit body i = some (p, v, a) →
      ∃ j ≤ i, p = body.take j ∧ (∀ x ∈ p, x ≠ '\n') ∧
        sepTail (body.drop j) = some (v, a) ∧
        ∀ j2, j < j2 → j2 ≤ i → ¬ GoodSplit body j2 := by
  intro i
  induction i with
  | zero =>
    intro h
    rcases hs : sepTail body with _ | ⟨v2, a2⟩
    · rw [show greedySplit body 0 = none by rw [greedySplit, hs]] at h
      exact absurd h (by simp)
    · rw [show greedySplit body 0 = some ([], v2, a2) by
        rw [greedySplit, hs]] at h
      obtain ⟨rfl, rfl, rfl⟩ : ([] : List Char) = p ∧ v2 = v ∧ a2 = a := by
        simpa [eq_comm] using h
      refine ⟨0, le_refl 0, by simp, by simp, by rw [List.drop_zero, hs], ?_⟩
      intro j2 h1 h2
      omega
  | succ i ih =>
    intro h
    rcases hs : sepTail (body.drop (i + 1)) with _ | ⟨v2, a2⟩
    · rw [show greedySplit body (i + 1) = greedySplit body i by
        rw [greedySplit, hs]] at h
      obtain ⟨j, hj, h1, h2, h3, h4⟩ := ih h
      refine ⟨j, hj.trans (Nat.le_succ i), h1, h2, h3, ?_⟩
      intro j2 hj2 hj2le
      rcases eq_or_lt_of_le hj2le with rfl | hlt
      · exact not_goodSplit_of_sepTail_none hs
      · exact h4 j2 hj2 (Nat.lt_succ_iff.mp hlt)
    · by_cases ht : ∀ x ∈ body.take (i + 1), x ≠ '\n'
      · rw [show greedySplit body (i + 1) = some (body.take (i + 1), v2, a2) by
          rw [greedySplit, hs]; exact if_pos ht] at h
        obtain ⟨rfl, rfl, rfl⟩ :
            body.take (i + 1) = p ∧ v2 = v ∧ a2 = a := by simpa using h
        refine ⟨i + 1, le_refl _, rfl, ht, hs, ?_⟩
        intro j2 h1 h2
        omega
      · rw [show greedySplit body (i + 1) = greedySplit body i by
          rw [greedySplit, hs]; exact if_neg ht] at h
        obtain ⟨j, hj, h1, h2, h3, h4⟩ := ih h
        refine ⟨j, hj.trans (Nat.le_succ i), h1, h2, h3, ?_⟩
        intro j2 hj2 hj2le
        rcases eq_or_lt_of_le hj2le with rfl | hlt
        · exact not_goodSplit_of_nl ht
        · exact h4 j2 hj2 (Nat.lt_succ_iff.mp hlt)

theorem captures_reduce {rest body : List Char}
    (hd : rest.dropWhile isWordChar = ':' :: body)
    (hk : rest.takeWhile isWordChar ≠ []) :
    captures ('!' :: rest) =
      match greedySplit body body.length with
      | some (p, v, a) => some ⟨rest.takeWhile isWordChar, p, v, a⟩
      | none => none := by
  rw [captures, if_pos rfl, hd]
  exact if_pos ⟨rfl, hk⟩

/-- Any grammar decomposition makes `GoodSplit` true at the pattern
boundary of the body following the first `':'`. -/
theorem goodSplit_of_split_body {p v a : List Char} {w1 w2 w3 : Char}
    (hpnl : ∀ x ∈ p, x ≠ '\n')
    (hw1 : w1.isWhitespace = true) (hw2 : w2.isWhitespace = true)
    (hvne : v ≠ []) (hvw : ∀ x ∈ v, isWordChar x = true)
    (hw3 : w3.isWhitespace = true) (hanl : ∀ x ∈ a, x ≠ '\n') :
    GoodSplit (p ++ w1 :: '-' :: '>' :: w2 :: (v ++ w3 :: a)) p.length ∧
      sepTail ((p ++ w1 :: '-' :: '>' :: w2 :: (v ++ w3 :: a)).drop p.length) =
        some (v, a) := by
  have htake : (p ++ w1 :: '-' :: '>' :: w2 :: (v ++ w3 :: a)).take p.length = p :=
    List.take_left p _
  have hdrop : (p ++ w1 :: '-' :: '>' :: w2 :: (v ++ w3 :: a)).drop p.length =
      w1 :: '-' :: '>' :: w2 :: (v ++ w3 :: a) :=
    List.drop_left p _
  have hsep : sepTail ((p ++ w1 :: '-' :: '>' :: w2 :: (v ++ w3 :: a)).drop
      p.length) = some (v, a) := by
    rw [hdrop]
    exact sepTail_eq_some_iff.mpr ⟨w1, w2, w3, rfl, hw1, hw2, hvne, hvw, hw3, hanl⟩
  refine ⟨⟨?_, by rw [hsep]; rfl⟩, hsep⟩
  rw [htake]
  exact hpnl

/-- What a successful grammar match means: the captures are a
decomposition of the line, the kind capture is forced, and the pattern
capture is the longest among all decompositions (the separator used is
the last viable one). -/
theorem captures_spec {l : List Char} {c : Captures} (h : captures l = some c) :
    IsSplit l c.kind c.pattern c.verb c.argument ∧
      ∀ k p v a, IsSplit l k p v a → k = c.kind ∧ p.length ≤ c.pattern.length := by
  match l with
  | [] => exact absurd h (by simp [captures])
  | bang :: rest =>
    rw [captures] at h
    split at h
    · rename_i hb
      subst hb
      split at h
      · rename_i colon body heq
        split at h
        · rename_i hck
          obtain ⟨rfl, hk⟩ := hck
          split at h
          · rename_i p v a hg
            rw [Option.some.injEq] at h
            subst h
            obtain ⟨j, hj, hp, hpnl, hsep, hmax⟩ := greedySplit_eq_some _ hg
            obtain ⟨w1, w2, w3, hdropj, hw1, hw2, hvne, hvw, hw3, hanl⟩ :=
              sepTail_eq_some_iff.mp hsep
            have hbody : body = p ++ w1 :: '-' :: '>' :: w2 :: (v ++ w3 :: a) := by
              rw [← List.take_append_drop j body, ← hp, hdropj]
            have hrest : rest = rest.takeWhile isWordChar ++ ':' :: body := by
              conv_lhs => rw [← rest.takeWhile_append_dropWhile isWordChar, heq]
            have hjlen : j = p.length := by
              have := congrArg List.length hp
              simp only [List.length_take] at this
              omega
            constructor
            · refine ⟨w1, w2, w3, ?_, hk,
                fun x hx => List.mem_takeWhile_imp hx, hpnl,
                hw1, hw2, hvne, hvw, hw3, hanl⟩
              show ('!' :: rest : List Char) = '!' :: (rest.takeWhile isWordChar
                ++ ':' :: (p ++ w1 :: '-' :: '>' :: w2 :: (v ++ w3 :: a)))
              nth_rewrite 1 [hrest]
              rw [hbody]
            · rintro k2 p2 v2 a2
                ⟨w1', w2', w3', heql, hk2ne, hk2w, hp2nl, hw1', hw2', hv2ne,
                  hv2w, hw3', ha2nl⟩
              have hrest2 : rest = k2 ++ ':' ::
                  (p2 ++ w1' :: '-' :: '>' :: w2' :: (v2 ++ w3' :: a2)) := by
                injection heql
              have h3 := takeWhile_dropWhile_append_cons isWordChar k2 ':'
                (p2 ++ w1' :: '-' :: '>' :: w2' :: (v2 ++ w3' :: a2)) hk2w
                (by decide)
              have hkk : rest.takeWhile isWordChar = k2 := by rw [hrest2]; exact h3.1
              have hbb : body =
                  p2 ++ w1' :: '-' :: '>' :: w2' :: (v2 ++ w3' :: a2) := by
                have hd2 : rest.dropWhile isWordChar = ':' ::
                    (p2 ++ w1' :: '-' :: '>' :: w2' :: (v2 ++ w3' :: a2)) := by
                  rw [hrest2]; exact h3.2
                rw [heq] at hd2
                injection hd2
              have hgood := goodSplit_of_split_body hp2nl hw1' hw2' hv2ne hv2w
                hw3' ha2nl
              have hlen2 : p2.length ≤ body.length := by
                rw [hbb]; simp
              have hle : p2.length ≤ j := by
                by_contra hgt
                push_neg at hgt
                exact hmax p2.length hgt hlen2 (by rw [hbb]; exact hgood.1)
              refine ⟨hkk.symm, ?_⟩
              show p2.length ≤ p.length
              omega
          · exact absurd h (by simp)
        · exact absurd h (by simp)
      · rename_i heq
        exact absurd h (by simp)
    · exact absurd h (by simp)

/-- Any line admitting a grammar decomposition is matched by
`ACTION_RE.captures`. -/
theorem captures_isSome_of_isSplit {l k p v a : List Char}
    (h : IsSplit l k p v a) : ∃ c : Captures, captures l = some c := by
  obtain ⟨w1, w2, w3, rfl, hkne, hkw, hpnl, hw1, hw2, hvne, hvw, hw3, hanl⟩ := h
  have h3 := takeWhile_dropWhile_append_cons isWordChar k ':'
    (p ++ w1 :: '-' :: '>' :: w2 :: (v ++ w3 :: a)) hkw (by decide)
  have hk : List.takeWhile isWordChar
      (k ++ ':' :: (p ++ w1 :: '-' :: '>' :: w2 :: (v ++ w3 :: a))) ≠ [] := by
    rw [h3.1]; exact hkne
  have hred := captures_reduce h3.2 hk
  have hgood := goodSplit_of_split_body hpnl hw1 hw2 hvne hvw hw3 hanl
  rcases hgs : greedySplit (p ++ w1 :: '-' :: '>' :: w2 :: (v ++ w3 :: a))
      (p ++ w1 :: '-' :: '>' :: w2 :: (v ++ w3 :: a)).length
    with _ | ⟨p3, v3, a3⟩
  · exfalso
    have := (greedySplit_eq_none_iff _).mp hgs p.length (by simp)
    exact this hgood.1
  · exact ⟨_, by rw [hred, hgs]⟩

/-! ## The keyword matcher `^{escape(pattern)}$` -/

theorem meta_not_word {c : Char} (h : isMetaChar c = true) :
    isWordChar c = false := by
  have h2 : c = '\\' ∨ c = '.' ∨ c = '+' ∨ c = '*' ∨ c = '?' ∨ c = '(' ∨
      c = ')' ∨ c = '|' ∨ c = '[' ∨ c = ']' ∨ c = '{' ∨ c = '}' ∨
      c = '^' ∨ c = '$' ∨ c = '#' ∨ c = '&' ∨ c = '-' ∨ c = '~' := by
    simpa only [isMetaChar, Bool.or_eq_true, decide_eq_true_eq, or_assoc]
      using h
  rcases h2 with rfl | rfl | rfl | rfl | rfl | rfl | rfl | rfl | rfl | rfl |
    rfl | rfl | rfl | rfl | rfl | rfl | rfl | rfl <;> decide

/-- Compiling the escaped pattern followed by `$` yields the literal
tokens of the pattern followed by the end anchor. -/
theorem compileToks_escape (p : List Char) :
    compileToks (regexEscape p ++ ['$']) = some (p.map RTok.lit ++ [RTok.eol]) := by
  induction p with
  | nil => rfl
  | cons c p ih =>
    by_cases hm : isMetaChar c = true
    · have hw : isWordChar c = false := meta_not_word hm
      have hc : regexEscape (c :: p) = '\\' :: c :: regexEscape p := by
        simp [regexEscape, hm]
      rw [hc, List.cons_append, List.cons_append]
      simp [compileToks, hw, ih]
    · have hm2 : isMetaChar c = false := by simpa using hm
      have hc : regexEscape (c :: p) = c :: regexEscape p := by
        simp [regexEscape, hm2]
      have hne : c ≠ '\\' ∧ c ≠ '.' ∧
          c ≠ '^' ∧ c ≠ '$' ∧ ¬(c = '*' ∨ c = '+' ∨ c = '?' ∨ c = '(' ∨
          c = ')' ∨ c = '|' ∨ c = '[' ∨ c = ']' ∨ c = '{' ∨ c = '}') := by
        simp only [isMetaChar, Bool.or_eq_false_iff, decide_eq_false_iff_not]
          at hm2
        tauto
      obtain ⟨h1, h2, h3, h4, h5⟩ := hne
      rw [hc, List.cons_append, compileToks.eq_def]
      simp only [if_neg h1, if_neg h2, if_neg h3, if_neg h4, if_neg h5, ih]
      rfl

/-- The full keyword matcher string `^{escape(p)}$` always compiles,
to the anchored literal token list. -/
theorem Regex.new_kw (p : List Char) :
    Regex.new ('^' :: (regexEscape p ++ ['$'])) =
      some ⟨RTok.bol :: (p.map RTok.lit ++ [RTok.eol])⟩ := by
  have h : compileToks ('^' :: (regexEscape p ++ ['$'])) =
      some (RTok.bol :: (p.map RTok.lit ++ [RTok.eol])) := by
    rw [compileToks.eq_def]
    simp [compileToks_escape]
  rw [Regex.new, h]
  rfl

theorem drop_eq_cons {α : Type} {s : List α} {i : Nat} {c : α} {t : List α} :
    s.drop i = c :: t ↔ s.get? i = some c ∧ s.drop (i + 1) = t := by
  induction s generalizing i with
  | nil => simp
  | cons d s ih =>
    match i with
    | 0 => simp
    | i + 1 =>
      rw [List.drop_succ_cons, List.get?_cons_succ, ih]
      rfl

/-- Matching a run of literal tokens followed by the end anchor from
position `i` succeeds exactly when the haystack from `i` equals the
literals. -/
theorem matchToks_lits_eol {s : List Char} (p : List Char) (i : Nat) :
    (matchToksFrom s (p.map RTok.lit ++ [RTok.eol]) i).isSome = true ↔
      s.drop i = p ∧ i ≤ s.length := by
  induction p generalizing i with
  | nil =>
    rw [List.map_nil, List.nil_append]
    simp only [matchToksFrom]
    constructor
    · intro h
      split at h
      · rename_i hi
        subst hi
        exact ⟨List.drop_length s, le_refl _⟩
      · exact absurd h (by simp)
    · rintro ⟨hd, hle⟩
      have h2 : s.length ≤ i := List.drop_eq_nil_iff.mp hd
      rw [if_pos (le_antisymm hle h2)]
      rfl
  | cons c p ih =>
    rw [List.map_cons, List.cons_append]
    rcases hg : s.get? i with _ | d
    · simp only [matchToksFrom, hg]
      constructor
      · intro h; exact absurd h (by simp)
      · rintro ⟨hd, hle⟩
        exfalso
        have h1 : s.length ≤ i := by
          by_contra hlt
          push_neg at hlt
          exact absurd hg (by rw [List.get?_eq_get hlt]; simp)
        rw [List.drop_eq_nil_iff.mpr h1] at hd
        exact List.cons_ne_nil c p hd.symm
    · simp only [matchToksFrom, hg]
      by_cases hdc : d = c
      · subst hdc
        rw [if_pos rfl, ih]
        constructor
        · rintro ⟨h1, h2⟩
          refine ⟨drop_eq_cons.mpr ⟨hg, h1⟩, by omega⟩
        · rintro ⟨h1, h2⟩
          obtain ⟨hg2, hd2⟩ := drop_eq_cons.mp h1
          obtain ⟨hlt, -⟩ := List.get?_eq_some.mp hg
          exact ⟨hd2, hlt⟩
      · rw [if_neg hdc]
        constructor
        · intro h; exact absurd h (by simp)
        · rintro ⟨h1, h2⟩
          obtain ⟨hg2, -⟩ := drop_eq_cons.mp h1
          rw [hg] at hg2
          exact absurd (by simpa using hg2) hdc

/-- The keyword matcher `^{escape(p)}$` matches exactly the string `p`
itself. -/
theorem kw_is_match (p s : List Char) :
    (Regex.mk (RTok.bol :: (p.map RTok.lit ++ [RTok.eol]))).is_match s = true ↔
      s = p := by
  rw [Regex.is_match, List.any_eq_true]
  constructor
  · rintro ⟨i, hi, h⟩
    simp only [matchToksFrom] at h
    split at h
    · rename_i hi0
      subst hi0
      have h2 := (matchToks_lits_eol p 0).mp h
      rw [List.drop_zero] at h2
      exact h2.1
    · exact absurd h (by simp)
  · rintro rfl
    refine ⟨0, by simp, ?_⟩
    show (matchToksFrom s (RTok.bol :: (s.map RTok.lit ++ [RTok.eol])) 0).isSome
      = true
    simp only [matchToksFrom, if_pos rfl]
    exact (matchToks_lits_eol s 0).mpr ⟨List.drop_zero s, Nat.zero_le _⟩

/-! ## Unfolding `Action.fromLine` -/

theorem fromLine_of_captures_none {l : List Char} (h : captures l = none) :
    Action.fromLine l = .error (.invalidActionLine l) := by
  rw [Action.fromLine, h]

theorem fromLine_kw {l : List Char} {c : Captures} (h : captures l = some c)
    (hk : c.kind = "kw".toList) :
    Action.fromLine l =
      .ok ⟨⟨RTok.bol :: (c.pattern.map RTok.lit ++ [RTok.eol])⟩,
        if c.verb = "scene".toList then Effect.Change c.argument
        else Effect.Output c.argument⟩ := by
  simp only [Action.fromLine, h]
  rw [if_pos hk, Regex.new_kw]

theorem fromLine_nonkw {l : List Char} {c : Captures} (h : captures l = some c)
    (hk : c.kind ≠ "kw".toList) :
    Action.fromLine l =
      match Regex.new c.pattern with
      | none => .error .invalidPattern
      | some expr =>
        .ok ⟨expr, if c.verb = "scene".toList then Effect.Change c.argument
          else Effect.Output c.argument⟩ := by
  simp only [Action.fromLine, h]
  rw [if_neg hk]

theorem fromLine_ok_effect {l : List Char} {c : Captures} {act : Action}
    (h : captures l = some c) (ha : Action.fromLine l = .ok act) :
    act.effect = if c.verb = "scene".toList then Effect.Change c.argument
      else Effect.Output c.argument := by
  by_cases hk : c.kind = "kw".toList
  · rw [fromLine_kw h hk] at ha
    injection ha with ha2
    rw [← ha2]
  · rw [fromLine_nonkw h hk] at ha
    rcases hr : Regex.new c.pattern with _ | expr <;> rw [hr] at ha
    · exact absurd ha (by simp)
    · obtain rfl : Action.mk expr (if c.verb = "scene".toList
          then Effect.Change c.argument else Effect.Output c.argument) = act := by
        simpa using ha
      rfl

/-! ## Loading scenes -/

theorem splitLines_join (content : List Char) :
    (splitLines content).flatten = content := by
  induction content with
  | nil => rfl
  | cons c rest ih =>
    rw [splitLines]
    by_cases hc : c = '\n'
    · subst hc
      rw [if_pos rfl]
      simpa using ih
    · rw [if_neg hc]
      rcases hs : splitLines rest with _ | ⟨l, ls⟩ <;> rw [hs] at ih
      · obtain rfl : rest = [] := by simpa using ih
        rfl
      · show ((c :: l) :: ls).flatten = c :: rest
        simpa using ih

theorem loadDesc_none {lines : List (List Char)} {d : List Char}
    {r : List (List Char)} (h : loadDesc lines = (d, none, r)) :
    d = lines.flatten ∧ r = [] ∧
      ∀ l ∈ lines, ∃ e, Action.fromLine (trim l) = .error e := by
  induction lines generalizing d r with
  | nil =>
    rw [loadDesc] at h
    simp only [Prod.mk.injEq] at h
    obtain ⟨rfl, -, rfl⟩ := h
    simp
  | cons l ls ih =>
    rcases hf : Action.fromLine (trim l) with e | a
    · simp only [loadDesc, hf] at h
      rcases hld : loadDesc ls with ⟨d2, oa2, r2⟩
      rw [hld] at h
      simp only [Prod.mk.injEq] at h
      obtain ⟨rfl, hoa, rfl⟩ := h
      subst hoa
      obtain ⟨rfl, rfl, hrest⟩ := ih hld
      refine ⟨by simp, rfl, ?_⟩
      intro l2 hl2
      rcases List.mem_cons.mp hl2 with rfl | hl2
      · exact ⟨e, hf⟩
      · exact hrest l2 hl2
    · simp only [loadDesc, hf] at h
      simp only [Prod.mk.injEq] at h
      exact absurd h.2.1 (by simp)

theorem loadDesc_some {lines : List (List Char)} {d : List Char} {a : Action}
    {r : List (List Char)} (h : loadDesc lines = (d, some a, r)) :
    ∃ pre l, lines = pre ++ l :: r ∧ d = pre.flatten ∧
      (∀ l2 ∈ pre, ∃ e, Action.fromLine (trim l2) = .error e) ∧
      Action.fromLine (trim l) = .ok a := by
  induction lines generalizing d r with
  | nil =>
    rw [loadDesc] at h
    simp only [Prod.mk.injEq] at h
    exact absurd h.2.1 (by simp)
  | cons l ls ih =>
    rcases hf : Action.fromLine (trim l) with e | a2
    · simp only [loadDesc, hf] at h
      rcases hld : loadDesc ls with ⟨d2, oa2, r2⟩
      rw [hld] at h
      simp only [Prod.mk.injEq] at h
      obtain ⟨rfl, hoa, rfl⟩ := h
      subst hoa
      obtain ⟨pre, l2, rfl, rfl, hpre, hl2⟩ := ih hld
      refine ⟨l :: pre, l2, rfl, by simp, ?_, hl2⟩
      intro l3 hl3
      rcases List.mem_cons.mp hl3 with rfl | hl3
      · exact ⟨e, hf⟩
      · exact hpre l3 hl3
    · simp only [loadDesc, hf] at h
      simp only [Prod.mk.injEq] at h
      obtain ⟨rfl, hoa, rfl⟩ := h
      obtain rfl : a2 = a := by simpa using hoa
      exact ⟨[], l, rfl, rfl, by simp, hf⟩

theorem loadDesc_all_fail {lines : List (List Char)}
    (h : ∀ l ∈ lines, ∃ e, Action.fromLine (trim l) = .error e) :
    loadDesc lines = (lines.flatten, none, []) := by
  induction lines with
  | nil => rfl
  | cons l ls ih =>
    obtain ⟨e, hf⟩ := h l (List.mem_cons_self l ls)
    have ih2 := ih fun l2 hl2 => h l2 (List.mem_cons_of_mem l hl2)
    simp only [loadDesc, hf, ih2]
    simp

theorem loadActions_blank {l : List Char} {ls : List (List Char)}
    (h : trim l = []) : loadActions (l :: ls) = loadActions ls := by
  simp only [loadActions, if_pos h]

/-- Once the action block has started, the first line that is
non-blank after trimming and fails to parse aborts the whole block
with exactly that line's parse error. -/
theorem loadActions_first_fail {r1 : List (List Char)} {l : List Char}
    {r2 : List (List Char)} {e : SceneError}
    (hok : ∀ l2 ∈ r1, trim l2 = [] ∨ ∃ act, Action.fromLine (trim l2) = .ok act)
    (hnb : trim l ≠ []) (hf : Action.fromLine (trim l) = .error e) :
    loadActions (r1 ++ l :: r2) = .error e := by
  induction r1 with
  | nil =>
    rw [List.nil_append]
    simp only [loadActions, if_neg hnb, hf]
  | cons l2 r1 ih =>
    have ih2 := ih fun l3 hl3 => hok l3 (List.mem_cons_of_mem l2 hl3)
    rw [List.cons_append]
    by_cases hb : trim l2 = []
    · rw [loadActions_blank hb]
      exact ih2
    · rcases hok l2 (List.mem_cons_self l2 r1) with hb2 | ⟨act, hact⟩
      · exact absurd hb2 hb
      · simp only [loadActions, if_neg hb, hact, ih2]
        rfl

/-- If every line of the block is blank or parses, the block loads
exactly the parses of the non-blank lines, in order. -/
theorem loadActions_ok {ls : List (List Char)} {as : List Action}
    (h : loadActions ls = .ok as) :
    as = ls.filterMap fun l =>
      if trim l = [] then none else (Action.fromLine (trim l)).toOption := by
  induction ls generalizing as with
  | nil =>
    rw [loadActions] at h
    obtain rfl : ([] : List Action) = as := by simpa using h
    rfl
  | cons l ls ih =>
    by_cases hb : trim l = []
    · rw [loadActions_blank hb] at h
      rw [List.filterMap_cons, if_pos hb]
      exact ih h
    · rcases hf : Action.fromLine (trim l) with e | a
      · simp only [loadActions, if_neg hb, hf] at h
        exact absurd h (by simp)
      · simp only [loadActions, if_neg hb, hf] at h
        rcases hl : loadActions ls with e2 | as2 <;> rw [hl] at h
        · exact absurd h (by simp [Except.map])
        · obtain rfl : a :: as2 = as := by simpa [Except.map] using h
          rw [List.filterMap_cons, if_neg hb, hf]
          rw [ih hl]
          rfl

theorem load_of_loadDesc_none {content d : List Char} {r : List (List Char)}
    (h : loadDesc (splitLines content) = (d, none, r)) :
    Scene.load content = .ok ⟨d, []⟩ := by
  simp only [Scene.load, h]

theorem load_of_loadDesc_some {content d : List Char} {a : Action}
    {rest : List (List Char)}
    (h : loadDesc (splitLines content) = (d, some a, rest)) :
    Scene.load content = (loadActions rest).map fun as => ⟨d, a :: as⟩ := by
  simp only [Scene.load, h]

/-! ## `get_action` -/

theorem getActionList_eq_none_iff {as : List Action} {input : List Char} :
    getActionList as input = none ↔
      ∀ a ∈ as, a.expression.is_match input = false := by
  induction as with
  | nil => simp [getActionList]
  | cons a as ih =>
    rw [getActionList]
    by_cases hm : a.expression.is_match input = true
    · rw [if_pos hm]
      constructor
      · intro h; exact absurd h (by simp)
      · intro h
        exact absurd hm (by simp [h a (List.mem_cons_self a as)])
    · rw [if_neg hm, ih]
      constructor
      · intro h b hb
        rcases List.mem_cons.mp hb with rfl | hb
        · simpa using hm
        · exact h b hb
      · intro h b hb
        exact h b (List.mem_cons_of_mem a hb)

theorem getActionList_eq_some_iff {as : List Action} {input : List Char}
    {act : Action} :
    getActionList as input = some act ↔
      ∃ (i : Nat) (hi : i < as.length), as.get ⟨i, hi⟩ = act ∧
        act.expression.is_match input = true ∧
        ∀ b ∈ as.take i, b.expression.is_match input = false := by
  induction as generalizing act with
  | nil => simp [getActionList]
  | cons a as ih =>
    rw [getActionList]
    by_cases hm : a.expression.is_match input = true
    · rw [if_pos hm]
      constructor
      · intro h
        obtain rfl : a = act := by simpa using h
        exact ⟨0, by simp, rfl, hm, by simp⟩
      · rintro ⟨i, hi, hget, hmatch, hpre⟩
        match i with
        | 0 => rw [Option.some.injEq]; exact hget
        | i + 1 =>
          exfalso
          have := hpre a (by simp [List.take_succ_cons])
          rw [this] at hm
          exact absurd hm (by simp)
    · rw [if_neg hm]
      rw [ih]
      constructor
      · rintro ⟨i, hi, hget, hmatch, hpre⟩
        refine ⟨i + 1, by simpa using hi, by simpa using hget, hmatch, ?_⟩
        intro b hb
        rw [List.take_succ_cons] at hb
        rcases List.mem_cons.mp hb with rfl | hb
        · simpa using hm
        · exact hpre b hb
      · rintro ⟨i, hi, hget, hmatch, hpre⟩
        match i with
        | 0 =>
          exfalso
          have hga : a = act := by simpa using hget
          rw [hga] at hm
          exact hm hmatch
        | i + 1 =>
          refine ⟨i, by simpa using hi, by simpa using hget, hmatch, ?_⟩
          intro b hb
          exact hpre b (by rw [List.take_succ_cons]; exact List.mem_cons_of_mem a hb)

/-! ## The claims -/

/-- C1: for every loaded Scene and every input string, `get_action`
returns the first Action in file order whose matcher matches the
input (`none` when no action matches): it returns `none` exactly when
no action's expression matches, and it returns `some act` exactly when
`act` sits at some index `i` of the action list, matches the input,
and every action before index `i` does not match.  The lookup is a
pure function of the Scene and the input. -/
theorem get_action_first_match (s : Scene) (input : List Char) :
    (s.get_action input = none ↔
      ∀ a ∈ s.actions, a.expression.is_match input = false) ∧
    ∀ act, s.get_action input = some act ↔
      ∃ (i : Nat) (hi : i < s.actions.length), s.actions.get ⟨i, hi⟩ = act ∧
        act.expression.is_match input = true ∧
        ∀ b ∈ s.actions.take i, b.expression.is_match input = false :=
  ⟨getActionList_eq_none_iff, fun _ => getActionList_eq_some_iff⟩

/-- C2: an Action parsed from a line whose kind capture is the literal
token `kw` with pattern text `p` gets the matcher `^{escape(p)}$`,
which matches an input string exactly when the input equals `p` —
anchored on both ends and insensitive to any regex metacharacters
occurring in `p`. -/
theorem kw_action_exact_match {line : List Char} {c : Captures} {act : Action}
    (hc : captures line = some c) (hk : c.kind = "kw".toList)
    (ha : Action.fromLine line = .ok act) (s : List Char) :
    act.expression.is_match s = true ↔ s = c.pattern := by
  rw [fromLine_kw hc hk] at ha
  injection ha with ha2
  rw [← ha2]
  exact kw_is_match c.pattern s

/-- Witness for C2 on the line `!kw:me+ow -> print x` (the pattern
contains the metacharacter `+`): the compiled matcher matches exactly
the pattern text. -/
theorem kw_action_exact_match_witness :
    (Action.mk ⟨[RTok.bol, RTok.lit 'm', RTok.lit 'e', RTok.lit '+',
        RTok.lit 'o', RTok.lit 'w', RTok.eol]⟩
      (Effect.Output "x".toList)).expression.is_match "me+ow".toList = true ↔
      "me+ow".toList = (Captures.mk "kw".toList "me+ow".toList "print".toList
        "x".toList).pattern :=
  @kw_action_exact_match "!kw:me+ow -> print x".toList
    ⟨"kw".toList, "me+ow".toList, "print".toList, "x".toList⟩
    ⟨⟨[RTok.bol, RTok.lit 'm', RTok.lit 'e', RTok.lit '+', RTok.lit 'o',
      RTok.lit 'w', RTok.eol]⟩, Effect.Output "x".toList⟩
    (by decide) (by decide) rfl "me+ow".toList

/-- C8: for every successfully parsed action line, the effect is
`Change(argument)` when the verb capture is the literal token `scene`
and `Output(argument)` for any other verb, with the argument capture
passed through verbatim. -/
theorem verb_scene_effect {line : List Char} {c : Captures} {act : Action}
    (hc : captures line = some c) (ha : Action.fromLine line = .ok act) :
    act.effect = if c.verb = "scene".toList then Effect.Change c.argument
      else Effect.Output c.argument :=
  fromLine_ok_effect hc ha

/-- Witness for C8 on `!kw:hug -> scene cuddle_cat`: the effect is
`Change "cuddle_cat"`. -/
theorem verb_scene_effect_witness :
    (Action.mk ⟨[RTok.bol, RTok.lit 'h', RTok.lit 'u', RTok.lit 'g',
        RTok.eol]⟩ (Effect.Change "cuddle_cat".toList)).effect =
      if ("scene".toList = "scene".toList) then
        Effect.Change "cuddle_cat".toList
      else Effect.Output "cuddle_cat".toList :=
  @verb_scene_effect "!kw:hug -> scene cuddle_cat".toList
    ⟨"kw".toList, "hug".toList, "scene".toList, "cuddle_cat".toList⟩
    ⟨⟨[RTok.bol, RTok.lit 'h', RTok.lit 'u', RTok.lit 'g', RTok.eol]⟩,
      Effect.Change "cuddle_cat".toList⟩ (by decide) rfl

/-- C9: for every action line whose kind capture is not `kw`, the
matcher is the pattern capture compiled verbatim (`Regex::new` on the
pattern text unchanged): parsing fails with `InvalidPattern` exactly
when the pattern does not compile, and on success the compiled matcher
is the unanchored search — it matches an input exactly when the
compiled tokens match starting at some position of the input. -/
theorem nonkw_pattern_verbatim {line : List Char} {c : Captures}
    (hc : captures line = some c) (hk : c.kind ≠ "kw".toList) :
    (Action.fromLine line = .error .invalidPattern ↔
      Regex.new c.pattern = none) ∧
    ∀ act, Action.fromLine line = .ok act →
      Regex.new c.pattern = some act.expression ∧
      ∀ s, act.expression.is_match s = true ↔
        ∃ i, i ≤ s.length ∧ (matchToksFrom s act.expression.toks i).isSome = true := by
  have hfl := fromLine_nonkw hc hk
  rcases hr : Regex.new c.pattern with _ | expr <;> rw [hr] at hfl
  · refine ⟨⟨fun _ => rfl, fun _ => hfl⟩, ?_⟩
    intro act ha
    rw [hfl] at ha
    exact absurd ha (by simp)
  · constructor
    · constructor
      · intro h
        rw [hfl] at h
        exact absurd h (by simp)
      · intro h
        exact absurd h (by simp)
    · intro act ha
      rw [hfl] at ha
      obtain rfl : Action.mk expr (if c.verb = "scene".toList
          then Effect.Change c.argument else Effect.Output c.argument) = act := by
        simpa using ha
      refine ⟨rfl, ?_⟩
      intro s
      rw [show (Action.mk expr _).expression = expr from rfl, Regex.is_match,
        List.any_eq_true]
      constructor
      · rintro ⟨i, hi, h⟩
        rw [List.mem_range] at hi
        exact ⟨i, by omega, h⟩
      · rintro ⟨i, hi, h⟩
        exact ⟨i, by rw [List.mem_range]; omega, h⟩

/-- Witness for C9 on `!re:me.w -> print x`: the matcher is the
verbatim compilation of `me.w`, searched unanchored over the input
`xxmeowzz`. -/
theorem nonkw_pattern_verbatim_witness :
    Regex.new "me.w".toList =
      some (Action.mk ⟨[RTok.lit 'm', RTok.lit 'e', RTok.dot, RTok.lit 'w']⟩
        (Effect.Output "x".toList)).expression ∧
    ((Action.mk ⟨[RTok.lit 'm', RTok.lit 'e', RTok.dot, RTok.lit 'w']⟩
        (Effect.Output "x".toList)).expression.is_match "xxmeowzz".toList
        = true ↔
      ∃ i, i ≤ "xxmeowzz".toList.length ∧
        (matchToksFrom "xxmeowzz".toList
          (Action.mk ⟨[RTok.lit 'm', RTok.lit 'e', RTok.dot, RTok.lit 'w']⟩
            (Effect.Output "x".toList)).expression.toks i).isSome = true) := by
  have h := (@nonkw_pattern_verbatim "!re:me.w -> print x".toList
    ⟨"re".toList, "me.w".toList, "print".toList, "x".toList⟩
    (by decide) (by decide)).2
    ⟨⟨[RTok.lit 'm', RTok.lit 'e', RTok.dot, RTok.lit 'w']⟩,
      Effect.Output "x".toList⟩ rfl
  exact ⟨h.1, h.2 "xxmeowzz".toList⟩

/-- C10: compiling the keyword matcher (the metacharacter-escaped
pattern wrapped in `^` and `$`) never fails — it always yields the
anchored literal token list — and consequently an `InvalidPattern`
error from `Action.fromLine` can only arise from a line whose kind
capture is not `kw`. -/
theorem kw_compile_total :
    (∀ p : List Char, Regex.new ('^' :: (regexEscape p ++ ['$'])) =
      some ⟨RTok.bol :: (p.map RTok.lit ++ [RTok.eol])⟩) ∧
    ∀ line, Action.fromLine line = .error .invalidPattern →
      ∃ c, captures line = some c ∧ c.kind ≠ "kw".toList := by
  refine ⟨Regex.new_kw, ?_⟩
  intro line h
  rcases hc : captures line with _ | c
  · rw [fromLine_of_captures_none hc] at h
    exact absurd h (by simp)
  · refine ⟨c, rfl, ?_⟩
    intro hk
    rw [fromLine_kw hc hk] at h
    exact absurd h (by simp)

/-- Witness for C10: the keyword matcher for `a+b` compiles, and the
line `!r:( -> print z` (whose kind is `r`, not `kw`) is a source of
`InvalidPattern`. -/
theorem kw_compile_total_witness :
    Regex.new ('^' :: (regexEscape "a+b".toList ++ ['$'])) =
      some ⟨RTok.bol :: ("a+b".toList.map RTok.lit ++ [RTok.eol])⟩ ∧
    ∃ c, captures "!r:( -> print z".toList = some c ∧ c.kind ≠ "kw".toList :=
  ⟨kw_compile_total.1 "a+b".toList,
   kw_compile_total.2 "!r:( -> print z".toList rfl⟩

/-- Counterexample to C3 as stated: the line
`!k:a -> b -> c\t->\tv x` parses as an action and contains the
literal substring `" -> "` twice (shown by the two decompositions),
the last such occurrence is followed by a verb token (`c`), a single
whitespace (the tab) and the argument, and the suffix after it
contains no further `" -> "` — yet the parser does not split there:
it splits at the later tab-delimited separator, capturing pattern
`a -> b -> c` and verb `v` instead of pattern `a -> b` and verb `c`. -/
theorem separator_not_last_literal_cex :
    captures "!k:a -> b -> c\t->\tv x".toList =
      some ⟨"k".toList, "a -> b -> c".toList, "v".toList, "x".toList⟩ ∧
    "!k:a -> b -> c\t->\tv x".toList =
      "!k:a".toList ++ (" -> ".toList ++ "b -> c\t->\tv x".toList) ∧
    "!k:a -> b -> c\t->\tv x".toList =
      "!k:a -> b".toList ++ (" -> ".toList ++ "c\t->\tv x".toList) ∧
    ¬ (" -> ".toList <:+: "c\t->\tv x".toList) ∧
    (isWordChar 'c' = true ∧ Char.isWhitespace '\t' = true ∧
      "c\t->\tv x".toList = 'c' :: '\t' :: "->\tv x".toList) ∧
    "a -> b -> c".toList ≠ "a -> b".toList ∧ "v".toList ≠ "c".toList := by
  refine ⟨rfl, rfl, rfl, by decide, ⟨rfl, rfl, rfl⟩, by decide, by decide⟩

/-- C3 (amended): the grammar separator is one whitespace character,
`->`, one whitespace character (the regex `\s->\s`, not only the
literal four-character `" -> "`).  For every line that parses as an
action, the captures form a grammar decomposition of the line
(`IsSplit`, which pins the kind as the word-character run between the
leading `!` and the first `:`), and the parser splits at the last such
separator: every other decomposition has the same kind and a pattern
no longer than the captured one. -/
theorem action_line_splits_at_last_separator {line k p v a : List Char}
    (h : captures line = some ⟨k, p, v, a⟩) :
    IsSplit line k p v a ∧
      ∀ k2 p2 v2 a2, IsSplit line k2 p2 v2 a2 →
        k2 = k ∧ p2.length ≤ p.length :=
  captures_spec h

/-- Witness for C3 on `!k:a -> b -> c -> v x`: the parser captures
pattern `a -> b -> c` and verb `v`; the alternative decomposition with
pattern `a` and verb `b` has the same kind and a shorter pattern. -/
theorem action_line_splits_witness :
    IsSplit "!k:a -> b -> c -> v x".toList "k".toList "a -> b -> c".toList
      "v".toList "x".toList ∧
    ("k".toList = "k".toList ∧
      "a".toList.length ≤ "a -> b -> c".toList.length) :=
  have h := @action_line_splits_at_last_separator
    "!k:a -> b -> c -> v x".toList "k".toList "a -> b -> c".toList
    "v".toList "x".toList rfl
  ⟨h.1, h.2 "k".toList "a".toList "b".toList "-> c -> v x".toList
    ⟨' ', ' ', ' ', by decide⟩⟩

/-- Counterexample to C4 as stated: the line `!kw:a\t->\tprint x`
does not contain the literal four-character separator `" -> "` at all
(its separator uses tabs), yet action parsing succeeds. -/
theorem tab_separator_accepted_cex :
    (Action.fromLine "!kw:a\t->\tprint x".toList).isOk = true ∧
    ¬ (" -> ".toList <:+: "!kw:a\t->\tprint x".toList) := by
  refine ⟨rfl, by decide⟩

/-- C4 (amended): action parsing succeeds only if the line matches
the grammar `!<kind>:<pattern><w1>-><w2><verb><w3><argument>` where
each `<wi>` is one whitespace character (the separator is `\s->\s`,
not only the literal `" -> "`): a line fails with `InvalidActionLine`
carrying the original line text exactly when it admits no grammar
decomposition, and consequently every successfully parsed line admits
one.  (A grammar-matching line can still fail, with `InvalidPattern`,
when its pattern capture does not compile.) -/
theorem invalid_action_line_iff {line : List Char} :
    (Action.fromLine line = .error (.invalidActionLine line) ↔
      ∀ k p v a, ¬ IsSplit line k p v a) ∧
    ∀ act, Action.fromLine line = .ok act →
      ∃ k p v a, IsSplit line k p v a := by
  have hiff : Action.fromLine line = .error (.invalidActionLine line) ↔
      ∀ k p v a, ¬ IsSplit line k p v a := by
    constructor
    · intro h k p v a hs
      obtain ⟨c, hc⟩ := captures_isSome_of_isSplit hs
      by_cases hk : c.kind = "kw".toList
      · rw [fromLine_kw hc hk] at h
        exact absurd h (by simp)
      · rw [fromLine_nonkw hc hk] at h
        rcases hr : Regex.new c.pattern with _ | expr <;> rw [hr] at h
        · exact absurd h (by simp)
        · exact absurd h (by simp)
    · intro h
      rcases hc : captures line with _ | c
      · exact fromLine_of_captures_none hc
      · exact absurd (captures_spec hc).1 (h c.kind c.pattern c.verb c.argument)
  refine ⟨hiff, ?_⟩
  intro act ha
  by_contra hno
  push_neg at hno
  rw [hiff.mpr hno] at ha
  exact absurd ha (by simp)

/-- Witness for C4 on `!kw:a -> print b`: the line parses, so it is
not an `InvalidActionLine` failure and it admits a grammar
decomposition. -/
theorem invalid_action_line_iff_witness :
    (Action.fromLine "!kw:a -> print b".toList =
        .error (.invalidActionLine "!kw:a -> print b".toList) ↔
      ∀ k p v a, ¬ IsSplit "!kw:a -> print b".toList k p v a) ∧
    ∃ k p v a, IsSplit "!kw:a -> print b".toList k p v a :=
  ⟨(@invalid_action_line_iff "!kw:a -> print b".toList).1,
   (@invalid_action_line_iff "!kw:a -> print b".toList).2
     ⟨⟨[RTok.bol, RTok.lit 'a', RTok.eol]⟩, Effect.Output "b".toList⟩ rfl⟩

/-- C5: the loaded Scene's description is exactly the concatenation of
the raw, untrimmed lines (with their newlines) preceding the first
line whose trimmed text parses as an Action; every line before that
point fails to parse and is absorbed into the description, never
raising an error. -/
theorem load_description {content : List Char} {s : Scene}
    (h : Scene.load content = .ok s) :
    ∃ pre post, splitLines content = pre ++ post ∧
      s.description = pre.flatten ∧
      (∀ l ∈ pre, ∃ e, Action.fromLine (trim l) = .error e) ∧
      ∀ l rest2, post = l :: rest2 → ∃ act, Action.fromLine (trim l) = .ok act := by
  rcases hld : loadDesc (splitLines content) with ⟨d, oa, r⟩
  rcases oa with _ | a
  · rw [load_of_loadDesc_none hld] at h
    obtain rfl : Scene.mk d [] = s := by simpa using h
    obtain ⟨rfl, rfl, hall⟩ := loadDesc_none hld
    refine ⟨splitLines content, [], by simp, rfl, hall, ?_⟩
    intro l r2 hlr
    exact absurd hlr (by simp)
  · rw [load_of_loadDesc_some hld] at h
    rcases hla : loadActions r with e | as <;> rw [hla] at h
    · exact absurd h (by simp [Except.map])
    · obtain rfl : Scene.mk d (a :: as) = s := by simpa [Except.map] using h
      obtain ⟨pre, l, hsplit, rfl, hpre, hok⟩ := loadDesc_some hld
      refine ⟨pre, l :: r, hsplit, rfl, hpre, ?_⟩
      intro l2 r2 h2
      injection h2 with h3 h4
      subst h3
      exact ⟨a, hok⟩

/-- Witness for C5 on the content `hi\n!kw:a -> print b`: the
description is the raw first line `hi\n`. -/
theorem load_description_witness :
    ∃ pre post, splitLines "hi\n!kw:a -> print b".toList = pre ++ post ∧
      (Scene.mk "hi\n".toList [⟨⟨[RTok.bol, RTok.lit 'a', RTok.eol]⟩,
        Effect.Output "b".toList⟩]).description = pre.flatten ∧
      (∀ l ∈ pre, ∃ e, Action.fromLine (trim l) = .error e) ∧
      ∀ l rest2, post = l :: rest2 →
        ∃ act, Action.fromLine (trim l) = .ok act :=
  @load_description "hi\n!kw:a -> print b".toList
    ⟨"hi\n".toList, [⟨⟨[RTok.bol, RTok.lit 'a', RTok.eol]⟩,
      Effect.Output "b".toList⟩]⟩ rfl

/-- Counterexample to C6 as stated: in the action block of the content
`x\n!kw:a -> print b\n!r:( -> print z\n`, the line `!r:( -> print z`
is non-blank and fails to parse (its pattern `(` does not compile),
and the whole load aborts — but with `InvalidPattern`, not with
`InvalidActionLine` as the claim states. -/
theorem abort_error_kind_cex :
    Scene.load "x\n!kw:a -> print b\n!r:( -> print z\n".toList =
      .error .invalidPattern ∧
    ∀ l : List Char, SceneError.invalidPattern ≠ .invalidActionLine l :=
  ⟨rfl, fun _ h => SceneError.noConfusion h⟩

/-- C6 (amended): once the first action line has been found during
load, scan the remaining lines: lines blank after trimming are
skipped, lines that parse contribute actions, and the first line that
is non-blank after trimming and fails to parse aborts the entire load
with that line's own parse error (`InvalidActionLine` for a grammar
failure, `InvalidPattern` for a pattern-compilation failure) — no
partial Scene is returned. -/
theorem action_block_abort {content d : List Char} {a0 : Action}
    {r1 : List (List Char)} {l : List Char} {r2 : List (List Char)}
    {e : SceneError}
    (h1 : loadDesc (splitLines content) = (d, some a0, r1 ++ l :: r2))
    (h2 : ∀ l2 ∈ r1, trim l2 = [] ∨ ∃ act, Action.fromLine (trim l2) = .ok act)
    (h3 : trim l ≠ []) (h4 : Action.fromLine (trim l) = .error e) :
    Scene.load content = .error e := by
  rw [load_of_loadDesc_some h1, loadActions_first_fail h2 h3 h4]
  rfl

/-- Witness for C6 on the content `x\n!kw:a -> print b\n\n!bad\n`: the
blank line after the first action is skipped, and the line `!bad`
aborts the load with its parse error. -/
theorem action_block_abort_witness :
    Scene.load "x\n!kw:a -> print b\n\n!bad\n".toList =
      .error (.invalidActionLine "!bad".toList) :=
  @action_block_abort "x\n!kw:a -> print b\n\n!bad\n".toList "x\n".toList
    ⟨⟨[RTok.bol, RTok.lit 'a', RTok.eol]⟩, Effect.Output "b".toList⟩
    ["\n".toList] "!bad\n".toList [] (.invalidActionLine "!bad".toList)
    rfl
    (fun l2 hl2 => by
      rw [List.mem_singleton] at hl2
      subst hl2
      exact Or.inl (by decide))
    (by decide) rfl

/-- C7: when no line of the file parses as an action, the load
succeeds: the Scene holds the whole content as its description with an
empty action list, and `get_action` on it returns `none` for every
input. -/
theorem load_zero_actions {content : List Char}
    (h : ∀ l ∈ splitLines content, ∃ e, Action.fromLine (trim l) = .error e) :
    Scene.load content = .ok ⟨content, []⟩ ∧
      ∀ input, Scene.get_action ⟨content, []⟩ input = none := by
  have hld := loadDesc_all_fail h
  rw [splitLines_join] at hld
  exact ⟨load_of_loadDesc_none hld, fun input => rfl⟩

/-- Witness for C7 on the content `hello\nworld`: the load yields the
whole content as description, no actions, and `get_action "meow"` is
`none`. -/
theorem load_zero_actions_witness :
    Scene.load "hello\nworld".toList = .ok ⟨"hello\nworld".toList, []⟩ ∧
      Scene.get_action ⟨"hello\nworld".toList, []⟩ "meow".toList = none := by
  have h := @load_zero_actions "hello\nworld".toList ?_
  · exact ⟨h.1, h.2 "meow".toList⟩
  · intro l hl
    rw [show splitLines "hello\nworld".toList =
      ["hello\n".toList, "world".toList] from rfl] at hl
    rcases List.mem_cons.mp hl with rfl | hl
    · exact ⟨.invalidActionLine "hello".toList, rfl⟩
    · rw [List.mem_singleton] at hl
      subst hl
      exact ⟨.invalidActionLine "world".toList, rfl⟩

end Rustventure
